import Mathlib

set_option autoImplicit false

/-!
Verification development for the gofind repository.

The Go sources are shallowly embedded in Lean:
  * strings are `List Char`; Go's byte-level operations on ASCII inputs are
    mirrored character by character (`'/'` is the path separator, as on Unix);
  * machine integers (`int64`) are `Int` with explicit wrapping modulo `2^64`
    where Go arithmetic can overflow;
  * fallible operations return `Option`/`Except`;
  * external collaborators of the core (the `regexp` engine, `strconv.ParseFloat`,
    `time.Parse`, the gitignore library behind `ignore.New`, the output sink and
    the cancellation context) are passed in as explicit parameters, exactly at
    the points where the Go code calls out to them.

Embedded components:
  * `GoFind.globMatch`     — `path/filepath.Match` (shell glob), as used by the
    ignore matcher with its error result discarded;
  * `GoFind.goBase`        — `path/filepath.Base`;
  * `GoFind.Ignore.*`      — `internal/ignore` Matcher (the glob/prefix variant);
  * `GoFind.Finder.*`      — `internal/finder/finder.go`: `parseSize`,
    `parseSince`, `isHidden`, the filter chain, the `filepath.WalkDir` walk and
    `Run` with its three output modes;
  * `GoFind.ConcModel.*`   — the concurrent traversal engine, modelled from the
    specification (its Go source is not part of the source tree; only its tests
    are).
-/

namespace GoFind

/-! ## Character and string helpers (Go `strings` / ASCII fragment) -/

/-- Whitespace recognized by Go's `unicode.IsSpace` in the Latin-1 range:
space, tab, newline, vertical tab, form feed, carriage return, NEL, NBSP. -/
def isSpaceGo (c : Char) : Bool :=
  c = ' ' || c = '\t' || c = '\n' || c = Char.ofNat 11 || c = Char.ofNat 12 ||
  c = '\r' || c = Char.ofNat 133 || c = Char.ofNat 160

/-- Embedding of `strings.TrimSpace`. -/
def trimSpaceGo (l : List Char) : List Char :=
  ((l.dropWhile isSpaceGo).reverse.dropWhile isSpaceGo).reverse

/-- Embedding of `strings.ToUpper` on the ASCII fragment exercised here. -/
def toUpperGo (l : List Char) : List Char := l.map Char.toUpper

/-- Embedding of `strings.ToLower` on the ASCII fragment exercised here. -/
def toLowerGo (l : List Char) : List Char := l.map Char.toLower

/-- Embedding of `strings.HasPrefix`. -/
def startsWithL (l p : List Char) : Bool := p.isPrefixOf l

/-- Embedding of `strings.HasSuffix`. -/
def endsWithL (l s : List Char) : Bool := s.isSuffixOf l

/-- Embedding of `strings.TrimSuffix` (removes one occurrence, if present). -/
def trimSuffixL (l s : List Char) : List Char :=
  if endsWithL l s then l.take (l.length - s.length) else l

/-- Embedding of `strings.Contains` (substring search). -/
def containsL : List Char → List Char → Bool
  | [], sub => sub.isEmpty
  | c :: t, sub => sub.isPrefixOf (c :: t) || containsL t sub

/-- Convenience conversion from a string literal to its character list. -/
def str (s : String) : List Char := s.data

/-! ## Shell glob matching (`path/filepath.Match`)

The ignore matcher calls `filepath.Match(pattern, base)` and discards the
`ErrBadPattern` error, keeping only the boolean; malformed patterns therefore
behave as non-matching.  The embedding returns that boolean directly.  `'*'`
and `'?'` do not cross the path separator `'/'`; a character class
`[...]`/`[^...]` matches any single character in (out of) the given ranges,
with `'\\'` escaping the following character. -/

/-- Embedding of `filepath.Match`'s `getEsc`: read one (possibly escaped) class
character; the remainder must be nonempty (at least the closing `']'`). -/
def globEsc : List Char → Option (Char × List Char)
  | [] => none
  | c :: rest =>
    if c = '-' ∨ c = ']' then none
    else if c = '\\' then
      match rest with
      | [] => none
      | d :: r2 => if r2 = [] then none else some (d, r2)
    else if rest = [] then none else some (c, rest)

/-- Range loop of a character class: fold the ranges, tracking whether the
candidate character `r` fell inside any of them.  `none` means the class is
malformed. -/
def globRanges (r : Char) : Nat → List Char → Bool → Nat → Option (Bool × List Char)
  | 0, _, _, _ => none
  | fuel + 1, chunk, matched, nrange =>
    match chunk with
    | ']' :: rest =>
      if nrange > 0 then some (matched, rest) else none
    | _ =>
      match globEsc chunk with
      | none => none
      | some (lo, rest) =>
        match rest with
        | '-' :: rest2 =>
          match globEsc rest2 with
          | none => none
          | some (hi, rest3) =>
            globRanges r fuel rest3 (matched || (lo ≤ r && r ≤ hi)) (nrange + 1)
        | _ =>
          globRanges r fuel rest (matched || (lo ≤ r && r ≤ lo)) (nrange + 1)

/-- Fuelled core of the glob matcher; every recursive call shrinks
`pattern.length + name.length`, so the initial fuel in `globMatch` suffices. -/
def globGo : Nat → List Char → List Char → Bool
  | 0, _, _ => false
  | fuel + 1, p, s =>
    match p with
    | [] => s = []
    | '*' :: p2 =>
      globGo fuel p2 s ||
        (match s with
         | [] => false
         | c :: s2 => c ≠ '/' && globGo fuel ('*' :: p2) s2)
    | '?' :: p2 =>
      (match s with
       | [] => false
       | c :: s2 => c ≠ '/' && globGo fuel p2 s2)
    | '[' :: p2 =>
      (match s with
       | [] => false
       | c :: s2 =>
         let neg : Bool × List Char :=
           match p2 with
           | '^' :: rest => (true, rest)
           | _ => (false, p2)
         match globRanges c (neg.2.length + 1) neg.2 false 0 with
         | none => false
         | some (m, rest) => (m != neg.1) && globGo fuel rest s2)
    | '\\' :: p2 =>
      (match p2 with
       | [] => false
       | d :: p3 =>
         match s with
         | [] => false
         | c :: s2 => c = d && globGo fuel p3 s2)
    | c :: p2 =>
      (match s with
       | [] => false
       | c2 :: s2 => c = c2 && globGo fuel p2 s2)

/-- Embedding of `filepath.Match pattern name` with the error discarded, the
form in which the ignore matcher consumes it. -/
def globMatch (p s : List Char) : Bool := globGo (p.length + s.length + 1) p s

/-! ## `filepath.Base` -/

/-- Drop trailing `'/'` characters. -/
def stripTrailingSlashes (l : List Char) : List Char :=
  (l.reverse.dropWhile (fun c => c = '/')).reverse

/-- Characters after the last `'/'`. -/
def afterLastSlash (l : List Char) : List Char :=
  (l.reverse.takeWhile (fun c => c ≠ '/')).reverse

/-- Embedding of `filepath.Base` (Unix separator). -/
def goBase (p : List Char) : List Char :=
  if p = [] then ['.']
  else
    let q := stripTrailingSlashes p
    if q = [] then ['/'] else afterLastSlash q

end GoFind

namespace GoFind.Ignore

/-! ## Ignore-pattern matcher (`internal/ignore`, glob/prefix variant)

`Matcher.Match` first makes the queried path relative to the matcher's root
via `filepath.Rel` (an external call, executed only when `root` is nonempty)
and normalizes separators with `filepath.ToSlash` (the identity on Unix).
The embedding covers the matcher as it is exercised: `root = ""`, with
root-relative, `'/'`-separated paths supplied directly. -/

/-- Matcher state: the `root` field is fixed to the empty string in this
embedding (see above), so only `enabled` and `patterns` remain. -/
structure Matcher where
  enabled : Bool
  patterns : List (List Char)

/-- Body of the pattern loop of `Matcher.Match` for one pattern `p`:
trim it, skip it when empty, then apply the directory-only rules (trailing
`'/'`) or the basename-glob rule with the prefix fallback. -/
def patternHit (path : List Char) (isDir : Bool) (p : List Char) : Bool :=
  let pp := trimSpaceGo p
  if pp = [] then false
  else
    let dirOnly := endsWithL pp ['/']
    let stem := trimSuffixL pp ['/']
    if dirOnly then
      (isDir && goBase path = stem) || startsWithL path (stem ++ ['/']) || path = stem
    else
      globMatch stem (goBase path) || startsWithL path (stem ++ ['/'])

/-- Embedding of `Matcher.Match` (with the path already root-relative and
`'/'`-normalized, see the section comment). -/
def Matcher.Match (m : Matcher) (path : List Char) (isDir : Bool) : Bool :=
  if !m.enabled then false
  else m.patterns.any (patternHit path isDir)

/-- Embedding of `Matcher.Enabled`. -/
def Matcher.Enabled (m : Matcher) : Bool := m.enabled

end GoFind.Ignore

namespace GoFind.Finder

/-! ## Finder (`internal/finder/finder.go`)

The walk target is modelled as an in-memory tree `FNode`; `filepath.WalkDir`
visits the root first and then descends in directory order, exactly as the
library does.  Per-entry stat (`d.Info()`) is modelled as always succeeding:
no claim concerns stat failures.  The output sink is a function
`sink : Nat → Bool` stating whether the n-th `Write` call succeeds, and the
cancellation context is `none` (never cancelled) or `some (k, e)`: from the
k-th `walkFn` invocation onward `ctx.Done()` is closed with cause `e`. -/

/-- Cancellation causes a Go `context.Context` can report. -/
inductive GoErr where
  | canceled
  | deadlineExceeded
deriving DecidableEq

/-- Cancellation context: `none` never fires; `some (k, e)` fires with cause
`e` at every `walkFn` invocation numbered `k` or later. -/
def Ctx := Option (Nat × GoErr)

/-- Cause reported by the context at invocation `i`, if it has fired. -/
def ctxFired (ctx : Ctx) (i : Nat) : Option GoErr :=
  match ctx with
  | none => none
  | some (k, e) => if k ≤ i then some e else none

/-- Embedding of the finder's `Result` record (one matched entry). -/
structure Result where
  path : List Char
  size : Int
  modTime : Int
  isDir : Bool
deriving DecidableEq

/-- The single structured document produced in array (`json`) output mode, at
the level of what the written bytes decode to: either the JSON literal
`null` or an array of entry records. -/
inductive JDoc where
  | jnull
  | jarr (rs : List Result)
deriving DecidableEq

/-- Payload of one `Write` call on the sink. -/
inductive Chunk where
  | line (p : List Char)
  | ndj (r : Result)
  | jdoc (d : JDoc)
deriving DecidableEq

/-- One `Write` call: its payload and whether the sink accepted it. -/
structure WriteEv where
  chunk : Chunk
  ok : Bool
deriving DecidableEq

/-- Go's `encoding/json` marshals a nil `[]Result` as the literal `null`;
in `Run` the slice starts nil and only ever grows by `append`, so it is nil
exactly when no entry matched. -/
def encodeGoSlice (rs : List Result) : JDoc :=
  if rs = [] then .jnull else .jarr rs

/-- Filesystem tree node.  Directories also carry the size and modification
time their stat reports, since the Go code applies size/time filters to
directories as well. -/
inductive FNode where
  | file (name : List Char) (size : Int) (mtime : Int)
  | dir (name : List Char) (size : Int) (mtime : Int) (children : List FNode)

/-- Base name of a node. -/
def FNode.nameV : FNode → List Char
  | .file n _ _ => n
  | .dir n _ _ _ => n

/-- Stat size of a node. -/
def FNode.sizeV : FNode → Int
  | .file _ s _ => s
  | .dir _ s _ _ => s

/-- Stat modification time of a node (nanoseconds since the epoch). -/
def FNode.mtimeV : FNode → Int
  | .file _ _ t => t
  | .dir _ _ t _ => t

/-- Directory flag of a node. -/
def FNode.isDirB : FNode → Bool
  | .file _ _ _ => false
  | .dir _ _ _ _ => true

mutual
/-- Number of nodes in a tree (used as a termination measure). -/
def countAll : FNode → Nat
  | .file _ _ _ => 1
  | .dir _ _ _ cs => 1 + countList cs
/-- Number of nodes in a forest. -/
def countList : List FNode → Nat
  | [] => 0
  | c :: cs => countAll c + countList cs
end

/-- Embedding of `isHidden` from `finder.go`: `"."` and `".."` are not hidden;
otherwise a leading dot marks the entry hidden. -/
def isHidden (n : List Char) : Bool :=
  if n = ['.'] ∨ n = ['.', '.'] then false
  else startsWithL n ['.']

/-- Embedding of `normalizeExts`: trim, drop empties, ensure a leading dot,
lower-case. -/
def normalizeExts (l : List (List Char)) : List (List Char) :=
  l.filterMap (fun e =>
    let e := trimSpaceGo e
    if e = [] then none
    else some (toLowerGo (if startsWithL e ['.'] then e else '.' :: e)))

/-- Embedding of `matchExt`: lower-cased name must end in one of the
extensions. -/
def matchExt (name : List Char) (exts : List (List Char)) : Bool :=
  exts.any (fun e => endsWithL (toLowerGo name) e)

/-- Embedding of `matchName` on Unix-like systems: case-sensitive substring
match (the `GOOS == "windows"` branch is out of the modelled platform). -/
def matchName (name needle : List Char) : Bool := containsL name needle

/-! ### `parseSize` (and its `strconv.ParseInt` dependency) -/

/-- Numeric value of a digit list. -/
def digitsVal (ds : List Char) : Nat :=
  ds.foldl (fun a c => a * 10 + (c.toNat - 48)) 0

/-- Embedding of `strconv.ParseInt(s, 10, 64)`: an optional single sign, a
nonempty run of decimal digits, and a signed-64-bit range check; any failure,
including out-of-range values, makes `parseSize` return the error. -/
def parseInt64 (s : List Char) : Option Int :=
  match s with
  | [] => none
  | c :: rest =>
    let neg := c = '-'
    let ds := if c = '-' ∨ c = '+' then rest else s
    if ds = [] ∨ ¬(ds.all Char.isDigit) then none
    else
      let v : Int := (digitsVal ds : Int)
      let n := if neg then -v else v
      if n < -(2 ^ 63) ∨ 2 ^ 63 - 1 < n then none else some n

/-- Wrap an integer into the signed 64-bit range, as Go `int64` arithmetic
does (two's complement, modulo `2^64`). -/
def i64wrap (x : Int) : Int := (x + 2 ^ 63) % 2 ^ 64 - 2 ^ 63

/-- Scanning phase of `parseSize`: trimmed, upper-cased input split into the
parsed number and the unit multiplier (1024 for `K`, 1024² for `M`,
1024³ for `G`). -/
def sizeParts (s : List Char) : Option (Int × Int) :=
  let s1 := trimSpaceGo (toUpperGo s)
  if s1 = [] then none
  else
    let ms : Int × List Char :=
      if endsWithL s1 ['K'] then (1024, trimSuffixL s1 ['K'])
      else if endsWithL s1 ['M'] then (1024 * 1024, trimSuffixL s1 ['M'])
      else if endsWithL s1 ['G'] then (1024 * 1024 * 1024, trimSuffixL s1 ['G'])
      else (1, s1)
    match parseInt64 (trimSpaceGo ms.2) with
    | none => none
    | some n => some (n, ms.1)

/-- Embedding of `parseSize` from `finder.go`: the parsed number times the
unit multiplier, in wrapping `int64` arithmetic, with no overflow check. -/
def parseSize (s : List Char) : Option Int :=
  match sizeParts s with
  | none => none
  | some nm => some (i64wrap (nm.1 * nm.2))

/-! ### `parseSince` (with its stdlib float/date parsing as parameters) -/

/-- Interface of the matcher `ignore.New` returns, as the walk consumes it. -/
structure MatcherI where
  enabled : Bool
  matchFn : List Char → Bool → Bool

/-- External parsing primitives consumed by `parseSince` and `Run`:
`strconv.ParseFloat`, the two `time.Parse` layouts, the current time, the
`regexp` compiler and the matcher built by `ignore.New` (which reads the
filesystem and uses the external gitignore library; `none` models its error
return). -/
structure RunDeps where
  parseFloatQ : List Char → Option ℚ
  parseDate : List Char → Option Int
  parseRFC3339 : List Char → Option Int
  now : Int
  regexCompile : List Char → Option (List Char → Bool)
  ignoreNew : Option MatcherI

/-- Truncation toward zero, Go's `float64` to `int64` conversion on
in-range values. -/
def qTrunc (q : ℚ) : Int := if 0 ≤ q then Int.floor q else Int.ceil q

/-- Embedding of `parseSince`: duration suffixes `d`/`h`/`m`/`s` subtract a
(truncated) duration from the current time; otherwise a 10-character input is
tried as `YYYY-MM-DD`, then RFC3339; anything else is an error.  Times are in
nanoseconds. -/
def parseSince (deps : RunDeps) (s0 : List Char) : Option Int :=
  let s := trimSpaceGo s0
  match s.getLast? with
  | none => none
  | some last =>
    if last = 'd' ∨ last = 'h' ∨ last = 'm' ∨ last = 's' then
      match deps.parseFloatQ (trimSpaceGo s.dropLast) with
      | none => none
      | some val =>
        let dur : Int :=
          if last = 'd' then qTrunc (val * 24) * 3600000000000
          else if last = 'h' then qTrunc val * 3600000000000
          else if last = 'm' then qTrunc val * 60000000000
          else qTrunc val * 1000000000
        some (deps.now - dur)
    else if s.length = 10 then
      match deps.parseDate s with
      | some t => some t
      | none => deps.parseRFC3339 s
    else
      deps.parseRFC3339 s

/-! ### Configuration, validation and the walk -/

/-- Embedding of `finder.Config`.  `RespectGitignore`/`ExtraIgnores` only
feed `ignore.New`, which is the `ignoreNew` dependency, so they do not
reappear here. -/
structure FinderConfig where
  path : List Char
  exts : List (List Char)
  name : List Char
  regex : List Char
  typ : List Char
  hidden : Bool
  larger : List Char
  smaller : List Char
  since : List Char
  output : List Char

/-- Errors `Run` can return. -/
inductive RunErr where
  | invalidRegex
  | invalidLarger
  | invalidSmaller
  | invalidSince
  | invalidOutput
  | ignoreNewErr
  | ctxErr (e : GoErr)
  | writeErr
deriving DecidableEq

/-- Normalized filter state after `Run`'s validation prologue. -/
structure WalkCfg where
  m : MatcherI
  hidden : Bool
  typ : List Char
  exts : List (List Char)
  namePat : List Char
  re : Option (List Char → Bool)
  largerBytes : Option Int
  smallerBytes : Option Int
  sinceCutoff : Option Int
  outMode : List Char

/-- Regex stage of `Run`'s validation: compile `cfg.Regex` when nonempty. -/
def regexStage (deps : RunDeps) (cfg : FinderConfig) :
    Except RunErr (Option (List Char → Bool)) :=
  if cfg.regex = [] then .ok none
  else
    match deps.regexCompile cfg.regex with
    | none => .error .invalidRegex
    | some r => .ok (some r)

/-- Larger-size stage: parse `cfg.Larger` when nonempty. -/
def largerStage (cfg : FinderConfig) : Except RunErr (Option Int) :=
  if cfg.larger = [] then .ok none
  else
    match parseSize cfg.larger with
    | none => .error .invalidLarger
    | some v => .ok (some v)

/-- Smaller-size stage: parse `cfg.Smaller` when nonempty. -/
def smallerStage (cfg : FinderConfig) : Except RunErr (Option Int) :=
  if cfg.smaller = [] then .ok none
  else
    match parseSize cfg.smaller with
    | none => .error .invalidSmaller
    | some v => .ok (some v)

/-- Since stage: parse `cfg.Since` when nonempty. -/
def sinceStage (deps : RunDeps) (cfg : FinderConfig) : Except RunErr (Option Int) :=
  if cfg.since = [] then .ok none
  else
    match parseSince deps cfg.since with
    | none => .error .invalidSince
    | some t => .ok (some t)

/-- Normalized output selector: trimmed, lower-cased, defaulted to `"path"`
when empty. -/
def outModeNorm (cfg : FinderConfig) : List Char :=
  if toLowerGo (trimSpaceGo cfg.output) = [] then str ("path")
  else toLowerGo (trimSpaceGo cfg.output)

/-- Output-mode stage: check the normalized selector. -/
def outModeStage (cfg : FinderConfig) : Except RunErr (List Char) :=
  if outModeNorm cfg ≠ str ("path") ∧ outModeNorm cfg ≠ str ("json") ∧
      outModeNorm cfg ≠ str ("ndjson") then
    .error .invalidOutput
  else .ok (outModeNorm cfg)

/-- Validation prologue of `Run`, in source order: regex, `--larger`,
`--smaller`, `--since`, output mode, `ignore.New`.  On success it yields the
normalized filter state together with the (defaulted) root path. -/
def mkWalkCfg (deps : RunDeps) (cfg : FinderConfig) :
    Except RunErr (WalkCfg × List Char) :=
  let rootPath := if cfg.path = [] then str (".") else cfg.path
  let exts := normalizeExts cfg.exts
  match regexStage deps cfg with
  | .error e => .error e
  | .ok re =>
    let typ0 := toLowerGo (trimSpaceGo cfg.typ)
    let typ := if typ0 = [] then str ("f") else typ0
    match largerStage cfg with
    | .error e => .error e
    | .ok largerBytes =>
      match smallerStage cfg with
      | .error e => .error e
      | .ok smallerBytes =>
        match sinceStage deps cfg with
        | .error e => .error e
        | .ok sinceTime =>
          let sinceCutoff := sinceTime.map (fun t => t - 2000000000)
          match outModeStage cfg with
          | .error e => .error e
          | .ok outMode =>
            match deps.ignoreNew with
            | none => .error .ignoreNewErr
            | some m =>
              .ok (⟨m, cfg.hidden, typ, exts, cfg.name, re, largerBytes,
                    smallerBytes, sinceCutoff, outMode⟩, rootPath)

/-- Which early return of `walkFn` fired for an entry (in source order). -/
inductive Reason where
  | ctxCancel
  | ignoreMatch
  | hiddenSkip
  | typeSkip
  | extSkip
  | nameSkip
  | regexSkip
  | sizeSkip
  | sinceSkip
  | emitted
deriving DecidableEq

/-- Failure of the regex criterion: a compiled regex exists and the base name
does not match it. -/
def reFails (re : Option (List Char → Bool)) (name : List Char) : Bool :=
  match re with
  | some r => !r name
  | none => false

/-- Failure of the `--larger` criterion: `!(size > *largerBytes)`. -/
def largerFails (lb : Option Int) (size : Int) : Bool :=
  match lb with
  | some v => !(decide (v < size))
  | none => false

/-- Failure of the `--smaller` criterion: `!(size < *smallerBytes)`. -/
def smallerFails (sb : Option Int) (size : Int) : Bool :=
  match sb with
  | some v => !(decide (size < v))
  | none => false

/-- Failure of the `--since` criterion: the modification time is before the
(tolerance-adjusted) cutoff. -/
def sinceFails (cut : Option Int) (mtime : Int) : Bool :=
  match cut with
  | some c => decide (mtime < c)
  | none => false

/-- Filter chain of `walkFn` after the cancellation check, in source order:
ignore matcher, hidden filter, type filter, extension filter, name substring,
regex, size bounds, since cutoff; an entry surviving all of them is emitted.
Stat (`d.Info()`) is modelled as succeeding. -/
def classify (wc : WalkCfg) (path name : List Char) (isDir : Bool)
    (size mtime : Int) : Reason :=
  if wc.m.enabled && wc.m.matchFn path isDir then .ignoreMatch
  else if !wc.hidden && isHidden name then .hiddenSkip
  else if wc.typ = str ("f") ∧ isDir = true then .typeSkip
  else if wc.typ = str ("d") ∧ isDir = false then .typeSkip
  else if isDir = false ∧ wc.exts ≠ [] ∧ matchExt name wc.exts = false then .extSkip
  else if wc.namePat ≠ [] ∧ matchName name wc.namePat = false then .nameSkip
  else if reFails wc.re name then .regexSkip
  else if largerFails wc.largerBytes size then .sizeSkip
  else if smallerFails wc.smallerBytes size then .sizeSkip
  else if sinceFails wc.sinceCutoff mtime then .sinceSkip
  else .emitted

/-- What `walkFn` tells `filepath.WalkDir` to do next. -/
inductive Directive where
  | cont
  | skipDir
  | fail (e : GoErr)
deriving DecidableEq

/-- Mutable state threaded through the walk: the `walkFn` invocation counter,
the sink write counter, the match count, the buffered `json`-mode results, the
write trace and the list of visited paths (every path `walkFn` was invoked
on, in order). -/
structure St where
  idx : Nat
  wIdx : Nat
  count : Nat
  results : List Result
  trace : List WriteEv
  visited : List (List Char)
deriving DecidableEq

/-- Embedding of one `walkFn` invocation on the entry at `path` with base
name `name`: cancellation check, then the filter chain, then emission in the
selected output mode.  Text-mode (`path`) and `ndjson` write errors are
discarded by the source (`// best-effort write; ignore error` and
`_ = enc.Encode(res)`), which the trace records but the directive ignores. -/
def walkStep (wc : WalkCfg) (ctx : Ctx) (sink : Nat → Bool) (path name : List Char)
    (isDir : Bool) (size mtime : Int) (st : St) : St × Directive × Reason :=
  let st1 : St := { st with idx := st.idx + 1, visited := st.visited ++ [path] }
  match ctxFired ctx st.idx with
  | some e => (st1, .fail e, .ctxCancel)
  | none =>
    match classify wc path name isDir size mtime with
    | .ignoreMatch => (st1, if isDir then .skipDir else .cont, .ignoreMatch)
    | .hiddenSkip => (st1, if isDir then .skipDir else .cont, .hiddenSkip)
    | .emitted =>
      let res : Result := ⟨path, size, mtime, isDir⟩
      let st2 : St :=
        if wc.outMode = str ("path") then
          { st1 with trace := st1.trace ++ [⟨.line path, sink st1.wIdx⟩],
                     wIdx := st1.wIdx + 1 }
        else if wc.outMode = str ("ndjson") then
          { st1 with trace := st1.trace ++ [⟨.ndj res, sink st1.wIdx⟩],
                     wIdx := st1.wIdx + 1 }
        else
          { st1 with results := st1.results ++ [res] }
      ({ st2 with count := st2.count + 1 }, .cont, .emitted)
    | r => (st1, .cont, r)

mutual
/-- Embedding of `filepath.WalkDir` over a node: invoke `walkFn`, then act on
its directive — abort the walk on an error, skip children on `fs.SkipDir`,
otherwise descend (directory order). -/
def walkNode (wc : WalkCfg) (ctx : Ctx) (sink : Nat → Bool) (path name : List Char)
    (n : FNode) (st : St) : St × Option GoErr :=
  match walkStep wc ctx sink path name n.isDirB n.sizeV n.mtimeV st with
  | (st1, .fail e, _) => (st1, some e)
  | (st1, .skipDir, _) => (st1, none)
  | (st1, .cont, _) =>
    match n with
    | .file _ _ _ => (st1, none)
    | .dir _ _ _ cs => walkChildren wc ctx sink path cs st1
/-- Walk the children of the directory at `dirPath` in order, stopping at the
first aborting error. -/
def walkChildren (wc : WalkCfg) (ctx : Ctx) (sink : Nat → Bool) (dirPath : List Char)
    (cs : List FNode) (st : St) : St × Option GoErr :=
  match cs with
  | [] => (st, none)
  | c :: rest =>
    match walkNode wc ctx sink (dirPath ++ '/' :: c.nameV) c.nameV c st with
    | (st1, some e) => (st1, some e)
    | (st1, none) => walkChildren wc ctx sink dirPath rest st1
end

/-- Post-validation phase of `Run`: walk from the root, translate a
`context.Canceled` abort into a clean return, and in `json` mode encode the
buffered results as the single final write, whose error is the only write
error `Run` surfaces. -/
structure RunOut where
  count : Nat
  err : Option RunErr
  trace : List WriteEv
  visited : List (List Char)
deriving DecidableEq

/-- Walk-and-output phase of `Run` (after validation succeeded). -/
def runWalk (wc : WalkCfg) (ctx : Ctx) (sink : Nat → Bool) (rootPath : List Char)
    (tree : FNode) : RunOut :=
  let st0 : St := ⟨0, 0, 0, [], [], []⟩
  match walkNode wc ctx sink rootPath (goBase rootPath) tree st0 with
  | (st, some .canceled) => ⟨st.count, none, st.trace, st.visited⟩
  | (st, some e) => ⟨st.count, some (.ctxErr e), st.trace, st.visited⟩
  | (st, none) =>
    if wc.outMode = str ("json") then
      let doc := encodeGoSlice st.results
      let ok := sink st.wIdx
      let trace := st.trace ++ [⟨.jdoc doc, ok⟩]
      if ok then ⟨st.count, none, trace, st.visited⟩
      else ⟨st.count, some .writeErr, trace, st.visited⟩
    else ⟨st.count, none, st.trace, st.visited⟩

/-- Embedding of `finder.Run`: validate the configuration, then walk and
write.  The returned `count` is the number of matched entries. -/
def Run (deps : RunDeps) (ctx : Ctx) (sink : Nat → Bool) (cfg : FinderConfig)
    (tree : FNode) : RunOut :=
  match mkWalkCfg deps cfg with
  | .error e => ⟨0, some e, [], []⟩
  | .ok pr => runWalk pr.1 ctx sink pr.2 tree

mutual
/-- Denotational list of the entries the filter chain matches in a subtree,
in walk order: the specification of what an uncancelled walk collects.  An
entry whose classification is the ignore matcher or the hidden filter
contributes nothing and (for directories) prunes the subtree; any other
classification contributes the entry itself exactly when it is emitted and
always descends into directories. -/
def denotNode (wc : WalkCfg) (path name : List Char) (n : FNode) : List Result :=
  if classify wc path name n.isDirB n.sizeV n.mtimeV = .ignoreMatch ∨
      classify wc path name n.isDirB n.sizeV n.mtimeV = .hiddenSkip then []
  else
    (if classify wc path name n.isDirB n.sizeV n.mtimeV = .emitted then
      [⟨path, n.sizeV, n.mtimeV, n.isDirB⟩]
    else []) ++
      (match n with
       | .file _ _ _ => []
       | .dir _ _ _ cs => denotList wc path cs)
/-- Denotational matches of a forest of children under `dirPath`. -/
def denotList (wc : WalkCfg) (dirPath : List Char) (cs : List FNode) : List Result :=
  match cs with
  | [] => []
  | c :: rest =>
    denotNode wc (dirPath ++ '/' :: c.nameV) c.nameV c ++ denotList wc dirPath rest
end

end GoFind.Finder

namespace GoFind.Ignore

/-! ### Specification-side pattern semantics (for the refinement claims) -/

/-- Pattern semantics as the specification's claim states them, for one
pattern: a directory-only pattern (trailing `'/'`) matches the directory
itself when its base name equals the stem, or any strict descendant of a path
equal to the stem (path-prefix comparison); a non-directory pattern matches
as a shell glob on the base name, with a path-prefix fallback treating the
pattern as a directory stem. -/
def SpecClaimPat (path : List Char) (isDir : Bool) (p : List Char) : Prop :=
  let pp := trimSpaceGo p
  pp ≠ [] ∧
  (if endsWithL pp ['/'] = true then
     (isDir = true ∧ goBase path = trimSuffixL pp ['/']) ∨
     (∃ rest, path = trimSuffixL pp ['/'] ++ '/' :: rest)
   else
     globMatch pp (goBase path) = true ∨ ∃ rest, path = pp ++ '/' :: rest)

/-- Matcher semantics as the claim states them: an enabled matcher excludes a
path exactly when some pattern applies; a path matching no pattern is not
excluded. -/
def SpecClaimMatch (m : Matcher) (path : List Char) (isDir : Bool) : Prop :=
  ∃ p ∈ m.patterns, SpecClaimPat path isDir p

/-- Amended pattern semantics: as `SpecClaimPat`, plus the clause the code
actually implements in the directory-only case — a path exactly equal to the
stem is also matched, whether or not it is a directory. -/
def SpecAmendedPat (path : List Char) (isDir : Bool) (p : List Char) : Prop :=
  let pp := trimSpaceGo p
  pp ≠ [] ∧
  (if endsWithL pp ['/'] = true then
     (isDir = true ∧ goBase path = trimSuffixL pp ['/']) ∨
     (∃ rest, path = trimSuffixL pp ['/'] ++ '/' :: rest) ∨
     path = trimSuffixL pp ['/']
   else
     globMatch pp (goBase path) = true ∨ ∃ rest, path = pp ++ '/' :: rest)

/-- Amended matcher semantics: some pattern applies in the amended sense. -/
def SpecAmendedMatch (m : Matcher) (path : List Char) (isDir : Bool) : Prop :=
  ∃ p ∈ m.patterns, SpecAmendedPat path isDir p

end GoFind.Ignore

namespace GoFind.ConcModel

open GoFind.Finder (FNode countAll countList)

/-! ## Concurrent traversal engine (modelled from the specification)

The concurrent finder (`Config{Root, Concurrency, OutputFormat, ...}` with
bounded worker admission) is not part of the source tree — only its tests
are — so this component is modelled from the specification: workers process
one directory each, bounded by the concurrency limit; per-entry filtering
(`emitP`) and pruning (`pruneP`) are pure functions of the entry; scheduling
nondeterminism is captured by an arbitrary choice function picking which of
the at-most-`conc` active tasks completes next. -/

/-- Modelled from the spec: one unit of pending work — a subtree rooted at
`path` waiting for a worker. -/
structure Task where
  path : List Char
  node : FNode

/-- Size measure of one task. -/
def taskSize (t : Task) : Nat := countAll t.node

/-- Size measure of a pending-task list. -/
def pendSize (ts : List Task) : Nat := (ts.map taskSize).sum

/-- Modelled from the spec: the child tasks a directory read enqueues. -/
def childTasks (p : List Char) (n : FNode) : List Task :=
  match n with
  | .file _ _ _ => []
  | .dir _ _ _ cs => cs.map (fun c => ⟨p ++ '/' :: c.nameV, c⟩)

/-- Modelled from the spec: processing one task — a pruned directory
contributes nothing and enqueues nothing; otherwise the entry is emitted when
the filter accepts it and its children are enqueued. -/
def procTask (emitP pruneP : List Char → FNode → Bool) (t : Task) :
    List (List Char) × List Task :=
  if pruneP t.path t.node then ([], [])
  else ((if emitP t.path t.node then [t.path] else []), childTasks t.path t.node)

/-- Modelled from the spec: the index of the task the scheduler hands to the
next free worker, among the first `min conc pending.length` pending tasks
(the active workers; a concurrency below 1 is treated as 1, matching default
resolution). -/
def pickIdx (conc : Nat) (sched : Nat → Nat) (step : Nat) (len : Nat) : Nat :=
  sched step % min (max conc 1) len

/-- Modelled from the spec: the scheduled run.  At each step the scheduler
picks one of the active tasks, its emissions are appended and its children
enqueued.  The fuel dominates the total number of steps; `runConc` supplies
enough. -/
def runSchedF (emitP pruneP : List Char → FNode → Bool) (conc : Nat)
    (sched : Nat → Nat) :
    Nat → Nat → List Task → List (List Char) → List (List Char)
  | _, _, [], acc => acc
  | 0, _, _ :: _, acc => acc
  | fuel + 1, step, t0 :: rest0, acc =>
    runSchedF emitP pruneP conc sched fuel (step + 1)
      ((t0 :: rest0).eraseIdx (pickIdx conc sched step (t0 :: rest0).length) ++
        (procTask emitP pruneP
          ((t0 :: rest0).getD (pickIdx conc sched step (t0 :: rest0).length) t0)).2)
      (acc ++
        (procTask emitP pruneP
          ((t0 :: rest0).getD (pickIdx conc sched step (t0 :: rest0).length) t0)).1)

/-- Modelled from the spec: a complete run over the tree at `rootPath` with
concurrency `conc` and scheduling choices `sched`; the emitted paths in
completion order. -/
def runConc (emitP pruneP : List Char → FNode → Bool) (conc : Nat)
    (sched : Nat → Nat) (rootPath : List Char) (tree : FNode) : List (List Char) :=
  runSchedF emitP pruneP conc sched (countAll tree) 0 [⟨rootPath, tree⟩] []

mutual
/-- Modelled from the spec: the denotational set of emitted paths of a
subtree — what filtering and pruning alone determine, independent of
scheduling. -/
def denotC (emitP pruneP : List Char → FNode → Bool) (p : List Char) (n : FNode) :
    List (List Char) :=
  if pruneP p n then []
  else
    (if emitP p n then [p] else []) ++
      (match n with
       | .file _ _ _ => []
       | .dir _ _ _ cs => denotCs emitP pruneP p cs)
/-- Denotational emitted paths of a forest of children. -/
def denotCs (emitP pruneP : List Char → FNode → Bool) (p : List Char) :
    List FNode → List (List Char)
  | [] => []
  | c :: rest =>
    denotC emitP pruneP (p ++ '/' :: c.nameV) c ++ denotCs emitP pruneP p rest
end

/-- Denotational emitted paths of a pending-task list, as a multiset. -/
def denotPend (emitP pruneP : List Char → FNode → Bool) :
    List Task → Multiset (List Char)
  | [] => 0
  | t :: rest =>
    (denotC emitP pruneP t.path t.node : Multiset (List Char)) +
      denotPend emitP pruneP rest

end GoFind.ConcModel


namespace GoFind.Finder

/-! ### Concrete fixtures used by witnesses and counterexamples -/

/-- Stub external dependencies: every external parser fails, the clock is 0,
and `ignore.New` returns a disabled matcher (the no-pattern case). -/
def depsW : RunDeps :=
  ⟨fun _ => none, fun _ => none, fun _ => none, 0, fun _ => none,
   some ⟨false, fun _ _ => false⟩⟩

/-- The validated pair `mkWalkCfg` produces, extracted for witnesses; the
default is never used when validation succeeds. -/
def mkOkPair (deps : RunDeps) (cfg : FinderConfig) : WalkCfg × List Char :=
  (mkWalkCfg deps cfg).toOption.getD
    (⟨⟨false, fun _ _ => false⟩, false, [], [], [], none, none, none, none, []⟩, [])

/-- One-file tree fixture. -/
def treeW : FNode := .dir (str ("r")) 4096 0 [.file (str ("a.txt")) 1 0]

/-- Empty-directory tree fixture (a zero-match run under the default
files-only type filter). -/
def treeWEmpty : FNode := .dir (str ("r")) 4096 0 []

/-- Text-mode configuration over root `"r"` with no filters. -/
def cfgWPath : FinderConfig := ⟨str ("r"), [], [], [], [], false, [], [], [], []⟩

/-- Array-mode (`json`) configuration over root `"r"` with no filters. -/
def cfgWJson : FinderConfig :=
  ⟨str ("r"), [], [], [], [], false, [], [], [], str ("json")⟩

/-- Stream-mode (`ndjson`) configuration over root `"r"` with no filters. -/
def cfgWNdjson : FinderConfig :=
  ⟨str ("r"), [], [], [], [], false, [], [], [], str ("ndjson")⟩

end GoFind.Finder

/-! ## Theorems -/

namespace GoFind

/-! ### Generic list lemmas -/

theorem startsWithL_iff (l p : List Char) :
    startsWithL l p = true ↔ ∃ t, l = p ++ t := by
  unfold startsWithL
  rw [List.isPrefixOf_iff_prefix]
  constructor
  · rintro ⟨t, ht⟩; exact ⟨t, ht.symm⟩
  · rintro ⟨t, ht⟩; exact ⟨t, ht.symm⟩

theorem takeWhile_append_stop (p : Char → Bool) (u v : List Char) (c : Char)
    (hu : ∀ ch ∈ u, p ch = true) (hc : p c = false) :
    (u ++ c :: v).takeWhile p = u := by
  induction u with
  | nil => simp [List.takeWhile, hc]
  | cons a t ih =>
    have ha : p a = true := hu a (List.mem_cons_self a t)
    have ih2 := ih (fun ch hch => hu ch (List.mem_cons_of_mem a hch))
    simp [List.takeWhile, ha, ih2]

theorem dropWhile_cons_stop (a : Char) (t : List Char) (p : Char → Bool)
    (ha : p a = false) : (a :: t).dropWhile p = a :: t := by
  simp [List.dropWhile, ha]

theorem goBase_append (a x : List Char) (hx : x ≠ []) (hxs : '/' ∉ x) :
    goBase (a ++ '/' :: x) = x := by
  have hnil : a ++ '/' :: x ≠ [] := by simp
  obtain ⟨c, cs, hcs⟩ : ∃ c cs, x.reverse = c :: cs := by
    cases h : x.reverse with
    | nil => exact absurd (by simpa using congrArg List.reverse h) hx
    | cons c cs => exact ⟨c, cs, rfl⟩
  have hcmem : c ∈ x := by
    have : c ∈ x.reverse := by rw [hcs]; exact List.mem_cons_self c cs
    simpa using this
  have hcslash : c ≠ '/' := fun h => hxs (h ▸ hcmem)
  have hrev2 : (a ++ '/' :: x).reverse = c :: (cs ++ '/' :: a.reverse) := by
    rw [List.reverse_append, List.reverse_cons]
    rw [show x.reverse ++ ['/'] ++ a.reverse = x.reverse ++ '/' :: a.reverse by simp]
    rw [hcs]; simp
  have hstrip : stripTrailingSlashes (a ++ '/' :: x) = a ++ '/' :: x := by
    unfold stripTrailingSlashes
    rw [hrev2, dropWhile_cons_stop c (cs ++ '/' :: a.reverse) _
      (by simp [hcslash]), ← hrev2, List.reverse_reverse]
  have hafter : afterLastSlash (a ++ '/' :: x) = x := by
    unfold afterLastSlash
    have hmem : ∀ ch ∈ x.reverse, (fun ch => decide (ch ≠ '/')) ch = true := by
      intro ch hch
      exact decide_eq_true (fun h => hxs (h ▸ List.mem_reverse.mp hch))
    have hgoal : (a ++ '/' :: x).reverse = x.reverse ++ '/' :: a.reverse := by
      simp
    rw [hgoal]
    rw [takeWhile_append_stop _ x.reverse a.reverse '/' hmem (by simp), List.reverse_reverse]
  unfold goBase
  rw [if_neg hnil, hstrip]
  rw [if_neg (by simp), hafter]

theorem eq_append_slash_cancel (x a rest t : List Char)
    (hxs : '/' ∉ x) (has : '/' ∉ a)
    (h : a ++ '/' :: rest = x ++ '/' :: t) : x = a := by
  have hux : ∀ ch ∈ x, (fun ch => !decide (ch = '/')) ch = true := by
    intro ch hch
    simp only [Bool.not_eq_true']
    exact decide_eq_false (fun hh => hxs (hh ▸ hch))
  have hua : ∀ ch ∈ a, (fun ch => !decide (ch = '/')) ch = true := by
    intro ch hch
    simp only [Bool.not_eq_true']
    exact decide_eq_false (fun hh => has (hh ▸ hch))
  have hslash : (fun ch => !decide (ch = '/')) '/' = false := by simp
  calc x = (x ++ '/' :: t).takeWhile (fun ch => !decide (ch = '/')) :=
        (takeWhile_append_stop _ x t '/' hux hslash).symm
    _ = (a ++ '/' :: rest).takeWhile (fun ch => !decide (ch = '/')) := by rw [← h]
    _ = a := takeWhile_append_stop _ a rest '/' hua hslash

end GoFind

namespace GoFind.Finder

/-- C8: the hidden classifier returns `false` for the special base names `"."`
and `".."` and `true` exactly for every other base name beginning with a dot;
in particular the base name of a root supplied as `"."` (which is what the
walk hands the classifier for that root) is not hidden. -/
theorem c8_isHidden_characterization :
    (∀ n : List Char,
      isHidden n = true ↔ n ≠ ['.'] ∧ n ≠ ['.', '.'] ∧ startsWithL n ['.'] = true) ∧
    isHidden (goBase (str ("."))) = false := by
  constructor
  · intro n
    by_cases h1 : n = ['.']
    · subst h1; decide
    by_cases h2 : n = ['.', '.']
    · subst h2; decide
    · simp [isHidden, h1, h2]
  · decide

/-- C9: `parseSize` accepts negative numbers (`"-5K"` yields `-5120` with no
error), and the parsed number is multiplied by the unit factor with no
overflow check, so whenever that product leaves the signed 64-bit range the
returned value is the product wrapped modulo `2^64` — a value different from
the true product — still with no error. -/
theorem c9_parseSize_overflow_wraps :
    parseSize (str ("-5K")) = some (-5120) ∧
    ∀ s : List Char, ∀ n mult : Int, sizeParts s = some (n, mult) →
      (2 ^ 63 - 1 < n * mult ∨ n * mult < -(2 ^ 63)) →
      parseSize s = some (i64wrap (n * mult)) ∧ i64wrap (n * mult) ≠ n * mult := by
  refine ⟨by decide, ?_⟩
  intro s n mult h hov
  refine ⟨by simp [parseSize, h], ?_⟩
  have h1 : (0 : Int) ≤ (n * mult + 2 ^ 63) % 2 ^ 64 :=
    Int.emod_nonneg _ (by norm_num)
  have h2 : (n * mult + 2 ^ 63) % 2 ^ 64 < 2 ^ 64 :=
    Int.emod_lt_of_pos _ (by norm_num)
  simp only [i64wrap]
  omega

/-- Witness for C9: at `"9223372036854775807K"` the scan yields the maximal
`int64` times 1024, whose true product exceeds the range; `parseSize` returns
the wrapped product (`-1024`) with no error. -/
theorem c9_witness :
    sizeParts (str ("9223372036854775807K")) = some (9223372036854775807, 1024) ∧
    (2 ^ 63 - 1 < (9223372036854775807 : Int) * 1024 ∨
      (9223372036854775807 : Int) * 1024 < -(2 ^ 63)) ∧
    parseSize (str ("9223372036854775807K")) =
      some (i64wrap (9223372036854775807 * 1024)) ∧
    i64wrap ((9223372036854775807 : Int) * 1024) ≠ 9223372036854775807 * 1024 := by
  refine ⟨by decide, by decide, ?_⟩
  exact c9_parseSize_overflow_wraps.2 _ _ _ (by decide) (by decide)

end GoFind.Finder

namespace GoFind

theorem dropWhile_eq_self_of_none (l : List Char) (p : Char → Bool)
    (h : ∀ ch ∈ l, p ch = false) : l.dropWhile p = l := by
  cases l with
  | nil => simp
  | cons a t => simp [List.dropWhile, h a (List.mem_cons_self a t)]

theorem trimSpaceGo_eq_self (l : List Char)
    (h : ∀ ch ∈ l, isSpaceGo ch = false) : trimSpaceGo l = l := by
  unfold trimSpaceGo
  rw [dropWhile_eq_self_of_none l _ h]
  rw [dropWhile_eq_self_of_none l.reverse _
    (fun ch hch => h ch (List.mem_reverse.mp hch))]
  exact List.reverse_reverse l

theorem endsWith_append_slash (x : List Char) :
    endsWithL (x ++ ['/']) ['/'] = true := by
  unfold endsWithL
  rw [List.isSuffixOf_iff_suffix]
  exact List.suffix_append x ['/']

theorem trimSuffix_append_slash (x : List Char) :
    trimSuffixL (x ++ ['/']) ['/'] = x := by
  unfold trimSuffixL
  rw [if_pos (endsWith_append_slash x)]
  simp

end GoFind

namespace GoFind.Ignore

/-- C10: for a directory-only pattern built from a single component `x` and a
nested directory at relative path `a/x` (a single component `a` distinct from
`x`, so the subtree is not at the top level), the matcher excludes the
directory itself through the base-name rule, yet does not exclude an entry
`a/x/c` beneath it, because the descendant rule is a prefix comparison
anchored at the start of the relative path. -/
theorem c10_nested_dir_not_pruned (x a c : List Char)
    (hx : x ≠ []) (hxs : '/' ∉ x) (hxw : ∀ ch ∈ x, isSpaceGo ch = false)
    (has : '/' ∉ a) (hax : a ≠ x) :
    Matcher.Match ⟨true, [x ++ ['/']]⟩ (a ++ '/' :: x) true = true ∧
    Matcher.Match ⟨true, [x ++ ['/']]⟩ (a ++ '/' :: (x ++ '/' :: c)) false = false := by
  have htrim : trimSpaceGo (x ++ ['/']) = x ++ ['/'] := by
    apply trimSpaceGo_eq_self
    intro ch hch
    rcases List.mem_append.mp hch with h | h
    · exact hxw ch h
    · simp only [List.mem_singleton] at h
      subst h; decide
  have hpp : x ++ ['/'] ≠ [] := by simp
  constructor
  · unfold Matcher.Match
    simp only [Bool.not_true, Bool.false_eq_true, if_false, List.any_cons,
      List.any_nil, Bool.or_false]
    unfold patternHit
    simp only [htrim]
    rw [if_neg hpp, if_pos (endsWith_append_slash x), trimSuffix_append_slash]
    rw [goBase_append a x hx hxs]
    simp
  · unfold Matcher.Match
    simp only [Bool.not_true, Bool.false_eq_true, if_false, List.any_cons,
      List.any_nil, Bool.or_false]
    unfold patternHit
    simp only [htrim]
    rw [if_neg hpp, if_pos (endsWith_append_slash x), trimSuffix_append_slash]
    have hpre : startsWithL (a ++ '/' :: (x ++ '/' :: c)) (x ++ ['/']) = false := by
      rw [Bool.eq_false_iff]
      intro hw
      obtain ⟨t, ht⟩ := (startsWithL_iff _ _).mp hw
      rw [List.append_assoc] at ht
      simp only [List.singleton_append] at ht
      exact hax (eq_append_slash_cancel x a (x ++ '/' :: c) t hxs has ht).symm
    have hne : a ++ '/' :: (x ++ '/' :: c) ≠ x := by
      intro hh
      exact hxs (hh ▸ (by simp : '/' ∈ a ++ '/' :: (x ++ '/' :: c)))
    simp [hpre, hne]

/-- Witness for C10 at the claim's own instance: pattern `"X/"`, directory
`"a/X"`, entry `"a/X/child"`. -/
theorem c10_witness :
    Matcher.Match ⟨true, [str ("X/")]⟩ (str ("a/X")) true = true ∧
    Matcher.Match ⟨true, [str ("X/")]⟩ (str ("a/X/child")) false = false := by
  have h := c10_nested_dir_not_pruned (str ("X")) (str ("a")) (str ("child"))
    (by decide) (by decide) (by decide) (by decide) (by decide)
  exact h

end GoFind.Ignore

namespace GoFind.Ignore

theorem patternHit_iff_amended (path : List Char) (isDir : Bool) (p : List Char) :
    patternHit path isDir p = true ↔ SpecAmendedPat path isDir p := by
  simp only [patternHit, SpecAmendedPat]
  by_cases hpp : trimSpaceGo p = []
  · simp [hpp]
  · rw [if_neg hpp]
    simp only [hpp, ne_eq, not_false_iff, true_and]
    by_cases hdir : endsWithL (trimSpaceGo p) ['/'] = true
    · rw [if_pos hdir, if_pos hdir]
      simp only [Bool.or_eq_true, Bool.and_eq_true, decide_eq_true_eq,
        startsWithL_iff, List.append_assoc, List.singleton_append]
      tauto
    · rw [if_neg hdir, if_neg hdir]
      have hstem : trimSuffixL (trimSpaceGo p) ['/'] = trimSpaceGo p := by
        unfold trimSuffixL
        rw [if_neg hdir]
      rw [hstem]
      simp only [Bool.or_eq_true, startsWithL_iff, List.append_assoc,
        List.singleton_append]

/-- C4 (amended): an enabled matcher excludes a path exactly when some
pattern applies in the amended sense — the claim's directory-only and
basename-glob rules, plus the exact-relative-path rule the code also
implements for directory-only patterns (`path == ppNoSlash`, regardless of
the directory flag). -/
theorem c4_match_characterization (m : Matcher) (path : List Char) (isDir : Bool)
    (he : m.enabled = true) :
    Matcher.Match m path isDir = true ↔ SpecAmendedMatch m path isDir := by
  unfold Matcher.Match SpecAmendedMatch
  rw [he]
  simp only [Bool.not_true, Bool.false_eq_true, if_false, List.any_eq_true]
  constructor
  · rintro ⟨p, hp, hhit⟩
    exact ⟨p, hp, (patternHit_iff_amended path isDir p).mp hhit⟩
  · rintro ⟨p, hp, hspec⟩
    exact ⟨p, hp, (patternHit_iff_amended path isDir p).mpr hspec⟩

/-- Counterexample for C4 as stated: with pattern `"X/"`, the code matches the
non-directory path `"X"` (the `path == ppNoSlash` clause), but under the
claim's characterization no pattern applies — the path is not a directory,
not a strict descendant of the stem, and the pattern is not evaluated as a
basename glob. -/
theorem c4_claim_counterexample :
    Matcher.Match ⟨true, [str ("X/")]⟩ (str ("X")) false = true ∧
    ¬ SpecClaimMatch ⟨true, [str ("X/")]⟩ (str ("X")) false := by
  refine ⟨by decide, ?_⟩
  rintro ⟨p, hp, hpat⟩
  simp only [List.mem_singleton] at hp
  subst hp
  simp only [SpecClaimPat] at hpat
  rw [show trimSpaceGo (str ("X/")) = str ("X/") from by decide] at hpat
  rcases hpat with ⟨-, hbody⟩
  rw [if_pos (by decide)] at hbody
  rw [show trimSuffixL (str ("X/")) ['/'] = str ("X") from by decide] at hbody
  rcases hbody with ⟨hd, -⟩ | ⟨rest, hr⟩
  · exact absurd hd (by decide)
  · simp only [str] at hr
    simp at hr

/-- Witness for C4's amended characterization: the glob pattern `"*.tmp"`
applies to `"keep/file.tmp"` in the amended sense, hence the matcher excludes
it. -/
theorem c4_witness :
    (⟨true, [str ("*.tmp")]⟩ : Matcher).enabled = true ∧
    SpecAmendedMatch ⟨true, [str ("*.tmp")]⟩ (str ("keep/file.tmp")) false := by
  refine ⟨rfl, ?_⟩
  exact (c4_match_characterization ⟨true, [str ("*.tmp")]⟩ (str ("keep/file.tmp"))
    false rfl).mp (by decide)

end GoFind.Ignore

namespace GoFind.Finder

theorem walkStep_facts (wc : WalkCfg) (sink : Nat → Bool) (p nm : List Char)
    (b : Bool) (sz mt : Int) (st : St) :
    (∀ e, (walkStep wc none sink p nm b sz mt st).2.1 ≠ .fail e) ∧
    ((walkStep wc none sink p nm b sz mt st).2.1 = .skipDir ↔
      (b = true ∧ (classify wc p nm b sz mt = .ignoreMatch ∨
                   classify wc p nm b sz mt = .hiddenSkip))) ∧
    (wc.outMode = str ("json") →
      (walkStep wc none sink p nm b sz mt st).1.results =
        st.results ++
          (if classify wc p nm b sz mt = .emitted then [⟨p, sz, mt, b⟩] else []) ∧
      (walkStep wc none sink p nm b sz mt st).1.wIdx = st.wIdx ∧
      (walkStep wc none sink p nm b sz mt st).1.trace = st.trace) := by
  have hjp : (str ("json") = str ("path")) = False := by decide
  have hjn : (str ("json") = str ("ndjson")) = False := by decide
  cases hc : classify wc p nm b sz mt <;>
    cases b <;>
      simp [walkStep, ctxFired, hc, hjp, hjn] <;>
        (intro hmode; simp [hmode, hjp, hjn])

end GoFind.Finder

namespace GoFind.Finder

theorem one_le_countAll (n : FNode) : 1 ≤ countAll n := by
  cases n <;> simp [countAll]

mutual
theorem walkNode_noCancel : ∀ (wc : WalkCfg) (sink : Nat → Bool)
    (p nm : List Char) (n : FNode) (st : St),
    (walkNode wc none sink p nm n st).2 = none ∧
    (wc.outMode = str ("json") →
      (walkNode wc none sink p nm n st).1.results =
        st.results ++ denotNode wc p nm n ∧
      (walkNode wc none sink p nm n st).1.wIdx = st.wIdx ∧
      (walkNode wc none sink p nm n st).1.trace = st.trace)
  | wc, sink, p, nm, n, st => by
    obtain ⟨hnf, hskip, hjson⟩ := walkStep_facts wc sink p nm n.isDirB n.sizeV n.mtimeV st
    rw [walkNode]
    rcases hw : walkStep wc none sink p nm n.isDirB n.sizeV n.mtimeV st with ⟨st1, d, r⟩
    rw [hw] at hnf hskip hjson
    cases d with
    | fail e => exact absurd rfl (hnf e)
    | skipDir =>
      obtain ⟨hb, hcl⟩ := hskip.mp rfl
      refine ⟨rfl, fun hmode => ?_⟩
      obtain ⟨hres, hw2, ht2⟩ := hjson hmode
      have hden : denotNode wc p nm n = [] := by
        rw [denotNode.eq_def]
        rw [if_pos hcl]
      have hcle : classify wc p nm n.isDirB n.sizeV n.mtimeV ≠ .emitted := by
        rcases hcl with hcl | hcl <;> simp [hcl]
      rw [if_neg hcle] at hres
      simp only [List.append_nil] at hres
      exact ⟨by rw [hden, List.append_nil]; exact hres, hw2, ht2⟩
    | cont =>
      cases hn : n with
      | file fn fs ft =>
        refine ⟨rfl, fun hmode => ?_⟩
        obtain ⟨hres, hw2, ht2⟩ := hjson hmode
        refine ⟨?_, hw2, ht2⟩
        rw [hres, hn]
        rw [denotNode.eq_def]
        subst hn
        by_cases hig : classify wc p nm (FNode.file fn fs ft).isDirB
            (FNode.file fn fs ft).sizeV (FNode.file fn fs ft).mtimeV = .ignoreMatch ∨
          classify wc p nm (FNode.file fn fs ft).isDirB
            (FNode.file fn fs ft).sizeV (FNode.file fn fs ft).mtimeV = .hiddenSkip
        · rw [if_pos hig]
          have hcle : classify wc p nm (FNode.file fn fs ft).isDirB
              (FNode.file fn fs ft).sizeV (FNode.file fn fs ft).mtimeV ≠ .emitted := by
            rcases hig with hcl | hcl <;> simp [hcl]
          rw [if_neg hcle]
        · rw [if_neg hig]
          simp
      | dir dn ds dt cs =>
        subst hn
        obtain ⟨hch1, hch2⟩ := walkChildren_noCancel wc sink p cs st1
        refine ⟨hch1, fun hmode => ?_⟩
        obtain ⟨hres, hw2, ht2⟩ := hjson hmode
        obtain ⟨hcres, hcw, hct⟩ := hch2 hmode
        refine ⟨?_, by rw [hcw, hw2], by rw [hct, ht2]⟩
        rw [hcres]
        simp only at hres
        rw [hres]
        rw [denotNode.eq_def]
        have hb : (FNode.dir dn ds dt cs).isDirB = true := rfl
        have hnig : ¬ (classify wc p nm (FNode.dir dn ds dt cs).isDirB
            (FNode.dir dn ds dt cs).sizeV (FNode.dir dn ds dt cs).mtimeV = .ignoreMatch ∨
          classify wc p nm (FNode.dir dn ds dt cs).isDirB
            (FNode.dir dn ds dt cs).sizeV (FNode.dir dn ds dt cs).mtimeV = .hiddenSkip) := by
          intro hig
          exact absurd (hskip.mpr ⟨hb, hig⟩) (by simp)
        rw [if_neg hnig]
        rw [List.append_assoc]
termination_by wc sink p nm n st => countAll n * 2
decreasing_by simp [countAll]; omega
theorem walkChildren_noCancel : ∀ (wc : WalkCfg) (sink : Nat → Bool)
    (dirPath : List Char) (cs : List FNode) (st : St),
    (walkChildren wc none sink dirPath cs st).2 = none ∧
    (wc.outMode = str ("json") →
      (walkChildren wc none sink dirPath cs st).1.results =
        st.results ++ denotList wc dirPath cs ∧
      (walkChildren wc none sink dirPath cs st).1.wIdx = st.wIdx ∧
      (walkChildren wc none sink dirPath cs st).1.trace = st.trace)
  | wc, sink, dirPath, [], st => by
    rw [walkChildren, denotList]
    exact ⟨rfl, fun _ => ⟨by simp, rfl, rfl⟩⟩
  | wc, sink, dirPath, c :: rest, st => by
    rw [walkChildren]
    obtain ⟨hn1, hn2⟩ :=
      walkNode_noCancel wc sink (dirPath ++ '/' :: c.nameV) c.nameV c st
    rcases hww : walkNode wc none sink (dirPath ++ '/' :: c.nameV) c.nameV c st
      with ⟨st1, oe⟩
    rw [hww] at hn2
    simp only [hww] at hn1
    subst hn1
    obtain ⟨hr1, hr2⟩ := walkChildren_noCancel wc sink dirPath rest st1
    refine ⟨hr1, fun hmode => ?_⟩
    obtain ⟨hres1, hw1, ht1⟩ := hn2 hmode
    obtain ⟨hres2, hw2, ht2⟩ := hr2 hmode
    rw [denotList]
    refine ⟨?_, by rw [hw2, hw1], by rw [ht2, ht1]⟩
    rw [hres2]
    simp only at hres1
    rw [hres1, List.append_assoc]
termination_by wc sink dirPath cs st => countList cs * 2 + 1
decreasing_by
  · have := one_le_countAll c; simp [countList]; omega
  · have := one_le_countAll c; simp [countList]; omega
end

end GoFind.Finder

namespace GoFind.Finder

theorem Run_of_ok (deps : RunDeps) (ctx : Ctx) (sink : Nat → Bool)
    (cfg : FinderConfig) (tree : FNode) (pr : WalkCfg × List Char)
    (h : mkWalkCfg deps cfg = .ok pr) :
    Run deps ctx sink cfg tree = runWalk pr.1 ctx sink pr.2 tree := by
  simp [Run, h]

theorem Run_of_error (deps : RunDeps) (ctx : Ctx) (sink : Nat → Bool)
    (cfg : FinderConfig) (tree : FNode) (e : RunErr)
    (h : mkWalkCfg deps cfg = .error e) :
    Run deps ctx sink cfg tree = ⟨0, some e, [], []⟩ := by
  simp [Run, h]

/-- C1 (amended): with the sink's first write failing and no cancellation, a
run in array (`json`) mode surfaces the failure of its single final encode as
the terminal error; but in plain-text and `ndjson` modes every per-entry write
error is discarded by the source (`// best-effort write; ignore error`,
`_ = enc.Encode(res)`), and the run reports success whatever the sink does. -/
theorem c1_write_error_by_mode (deps : RunDeps) (sink : Nat → Bool)
    (cfg : FinderConfig) (tree : FNode) (pr : WalkCfg × List Char)
    (h : mkWalkCfg deps cfg = .ok pr) :
    (pr.1.outMode = str ("json") → sink 0 = false →
      (Run deps none sink cfg tree).err = some .writeErr) ∧
    (pr.1.outMode ≠ str ("json") →
      (Run deps none sink cfg tree).err = none) := by
  rw [Run_of_ok deps none sink cfg tree pr h]
  obtain ⟨hn1, hn2⟩ :=
    walkNode_noCancel pr.1 sink pr.2 (goBase pr.2) tree ⟨0, 0, 0, [], [], []⟩
  unfold runWalk
  rcases hwn : walkNode pr.1 none sink pr.2 (goBase pr.2) tree ⟨0, 0, 0, [], [], []⟩
    with ⟨stf, oe⟩
  rw [hwn] at hn1 hn2
  simp only at hn1
  subst hn1
  simp only [hwn]
  constructor
  · intro hmode hsink
    obtain ⟨-, hwidx, -⟩ := hn2 hmode
    simp only at hwidx
    rw [if_pos hmode]
    simp [hwidx, hsink]
  · intro hmode
    rw [if_neg hmode]

/-- Counterexample for C1 as stated: a text-mode run against a sink that
fails every write attempts a write (which fails) yet returns no error. -/
theorem c1_claim_counterexample :
    (Run depsW none (fun _ => false) cfgWPath treeW).err = none ∧
    (Run depsW none (fun _ => false) cfgWPath treeW).trace =
      [⟨.line (str ("r/a.txt")), false⟩] ∧
    (Run depsW none (fun _ => false) cfgWPath treeW).count = 1 := by
  decide

/-- Witness for C1's amended statement, applied in `json` mode (error
surfaced) and in `ndjson` mode (write failure ignored). -/
theorem c1_witness :
    (Run depsW none (fun _ => false) cfgWJson treeW).err = some .writeErr ∧
    (Run depsW none (fun _ => false) cfgWNdjson treeW).err = none := by
  constructor
  · exact (c1_write_error_by_mode depsW (fun _ => false) cfgWJson treeW
      (mkOkPair depsW cfgWJson) rfl).1 rfl rfl
  · exact (c1_write_error_by_mode depsW (fun _ => false) cfgWNdjson treeW
      (mkOkPair depsW cfgWNdjson) rfl).2 (by decide)

end GoFind.Finder

namespace GoFind.Finder

/-- C2 (amended): in array (`json`) mode an uncancelled run with a working
sink performs exactly one final write, whose payload is the structured
document encoding the collected matches; when at least one entry matched the
document is the array of exactly the matched entries, but when no entry
matched the buffered slice is still nil and the document is the JSON literal
`null` — syntactically valid, yet not an array. -/
theorem c2_json_document (deps : RunDeps) (sink : Nat → Bool)
    (cfg : FinderConfig) (tree : FNode) (pr : WalkCfg × List Char)
    (h : mkWalkCfg deps cfg = .ok pr)
    (hmode : pr.1.outMode = str ("json")) (hsink : sink 0 = true) :
    (Run deps none sink cfg tree).trace =
      [⟨.jdoc (encodeGoSlice (denotNode pr.1 pr.2 (goBase pr.2) tree)), true⟩] ∧
    (Run deps none sink cfg tree).err = none ∧
    (denotNode pr.1 pr.2 (goBase pr.2) tree ≠ [] →
      encodeGoSlice (denotNode pr.1 pr.2 (goBase pr.2) tree) =
        .jarr (denotNode pr.1 pr.2 (goBase pr.2) tree)) ∧
    (denotNode pr.1 pr.2 (goBase pr.2) tree = [] →
      encodeGoSlice (denotNode pr.1 pr.2 (goBase pr.2) tree) = .jnull) := by
  rw [Run_of_ok deps none sink cfg tree pr h]
  obtain ⟨hn1, hn2⟩ :=
    walkNode_noCancel pr.1 sink pr.2 (goBase pr.2) tree ⟨0, 0, 0, [], [], []⟩
  unfold runWalk
  rcases hwn : walkNode pr.1 none sink pr.2 (goBase pr.2) tree ⟨0, 0, 0, [], [], []⟩
    with ⟨stf, oe⟩
  rw [hwn] at hn1 hn2
  simp only at hn1
  subst hn1
  simp only [hwn]
  obtain ⟨hres, hwidx, htr⟩ := hn2 hmode
  simp only at hres hwidx htr
  simp only [List.nil_append] at hres
  rw [if_pos hmode]
  simp only [hres, hwidx, htr, hsink, if_true]
  refine ⟨by simp, trivial, fun hne => ?_, fun he => ?_⟩
  · unfold encodeGoSlice
    rw [if_neg hne]
  · unfold encodeGoSlice
    rw [if_pos he]

/-- Counterexample for C2 as stated: a `json`-mode run over a directory with
no matching entries writes the document `null` (and counts zero matches),
not an empty array. -/
theorem c2_claim_counterexample :
    (Run depsW none (fun _ => true) cfgWJson treeWEmpty).trace =
      [⟨.jdoc .jnull, true⟩] ∧
    (Run depsW none (fun _ => true) cfgWJson treeWEmpty).count = 0 ∧
    (Run depsW none (fun _ => true) cfgWJson treeWEmpty).err = none := by
  decide

/-- Witness for C2's amended statement at a one-match tree: the document is
the singleton array of the matched entry. -/
theorem c2_witness :
    (Run depsW none (fun _ => true) cfgWJson treeW).trace =
      [⟨.jdoc (encodeGoSlice (denotNode (mkOkPair depsW cfgWJson).1
        (mkOkPair depsW cfgWJson).2 (goBase (mkOkPair depsW cfgWJson).2) treeW)),
        true⟩] ∧
    encodeGoSlice (denotNode (mkOkPair depsW cfgWJson).1 (mkOkPair depsW cfgWJson).2
        (goBase (mkOkPair depsW cfgWJson).2) treeW) =
      .jarr [⟨str ("r/a.txt"), 1, 0, false⟩] := by
  constructor
  · exact (c2_json_document depsW (fun _ => true) cfgWJson treeW
      (mkOkPair depsW cfgWJson) rfl rfl rfl).1
  · decide

end GoFind.Finder

namespace GoFind.Finder

/-- C3 (amended): the ignore matcher is consulted first; the hidden check
runs immediately after it — before the type, extension, name, regex, size and
time filters and before any recursion decision — so with hidden inclusion
disabled, whenever the matcher does not claim a hidden entry the filter chain
resolves it as a hidden skip; and a directory with a hidden base name is
never descended into: the walk visits the directory itself and nothing below
it, emitting and writing nothing for the whole subtree (whether the skip came
from the matcher or from the hidden check). -/
theorem c3_hidden_after_matcher_before_filters :
    (∀ (wc : WalkCfg) (p nm : List Char) (b : Bool) (sz mt : Int),
      wc.hidden = false → isHidden nm = true →
      (wc.m.enabled && wc.m.matchFn p b) = false →
      classify wc p nm b sz mt = .hiddenSkip) ∧
    (∀ (wc : WalkCfg) (ctx : Ctx) (sink : Nat → Bool) (p nm nd : List Char)
      (sz mt : Int) (cs : List FNode) (st : St),
      wc.hidden = false → isHidden nm = true →
      (walkNode wc ctx sink p nm (.dir nd sz mt cs) st).1.visited =
        st.visited ++ [p] ∧
      (walkNode wc ctx sink p nm (.dir nd sz mt cs) st).1.results = st.results ∧
      (walkNode wc ctx sink p nm (.dir nd sz mt cs) st).1.trace = st.trace ∧
      (walkNode wc ctx sink p nm (.dir nd sz mt cs) st).1.count = st.count) := by
  have hcl : ∀ (wc : WalkCfg) (p nm : List Char) (b : Bool) (sz mt : Int),
      wc.hidden = false → isHidden nm = true →
      (wc.m.enabled && wc.m.matchFn p b) = false →
      classify wc p nm b sz mt = .hiddenSkip := by
    intro wc p nm b sz mt hh hhid hm
    unfold classify
    rw [if_neg (by rw [hm]; exact Bool.false_ne_true)]
    rw [if_pos (by rw [hh, hhid]; rfl)]
  refine ⟨hcl, ?_⟩
  intro wc ctx sink p nm nd sz mt cs st hh hhid
  rw [walkNode]
  unfold walkStep
  cases hctx : ctxFired ctx st.idx with
  | some e => exact ⟨rfl, rfl, rfl, rfl⟩
  | none =>
    by_cases hm : (wc.m.enabled && wc.m.matchFn p (FNode.dir nd sz mt cs).isDirB) = true
    · have hcls : classify wc p nm (FNode.dir nd sz mt cs).isDirB
          (FNode.dir nd sz mt cs).sizeV (FNode.dir nd sz mt cs).mtimeV = .ignoreMatch := by
        unfold classify
        rw [if_pos hm]
      rw [hcls]
      exact ⟨rfl, rfl, rfl, rfl⟩
    · have hcls : classify wc p nm (FNode.dir nd sz mt cs).isDirB
          (FNode.dir nd sz mt cs).sizeV (FNode.dir nd sz mt cs).mtimeV = .hiddenSkip :=
        hcl wc p nm _ _ _ hh hhid (Bool.not_eq_true _ ▸ hm)
      rw [hcls]
      exact ⟨rfl, rfl, rfl, rfl⟩

/-- Counterexample for C3 as stated: for a hidden directory that the ignore
matcher also claims, the filter chain resolves it as an ignore-matcher skip —
the matcher was evaluated first, so the hidden check did not run before it. -/
theorem c3_claim_counterexample :
    classify ⟨⟨true, fun _ _ => true⟩, false, str ("f"), [], [], none, none, none,
        none, str ("path")⟩ (str (".git")) (str (".git")) true 0 0 =
      .ignoreMatch ∧
    Reason.ignoreMatch ≠ Reason.hiddenSkip := by
  constructor
  · decide
  · decide

/-- Witness for C3's amended statement: a hidden, unmatched entry resolves as
a hidden skip, and walking a hidden directory with two children visits only
the directory itself and emits nothing. -/
theorem c3_witness :
    classify ⟨⟨false, fun _ _ => false⟩, false, str ("f"), [], [], none, none, none,
        none, str ("path")⟩ (str (".git")) (str (".git")) true 0 0 =
      .hiddenSkip ∧
    (walkNode ⟨⟨false, fun _ _ => false⟩, false, str ("f"), [], [], none, none, none,
        none, str ("path")⟩ none (fun _ => true) (str (".git")) (str (".git"))
        (.dir (str (".git")) 0 0 [.file (str ("a")) 1 0, .file (str ("b")) 1 0])
        ⟨0, 0, 0, [], [], []⟩).1.visited = [] ++ [str (".git")] := by
  constructor
  · exact (c3_hidden_after_matcher_before_filters).1 _ (str (".git")) (str (".git"))
      true 0 0 rfl (by decide) rfl
  · exact ((c3_hidden_after_matcher_before_filters).2 _ none (fun _ => true)
      (str (".git")) (str (".git")) (str (".git")) 0 0
      [.file (str ("a")) 1 0, .file (str ("b")) 1 0] ⟨0, 0, 0, [], [], []⟩
      rfl (by decide)).1

/-- C6 (amended): when the walk aborts because the context reported
`context.Canceled`, `Run` converts the abort into a clean result — no error,
with the count of entries collected before the cancellation; any other
context cause (such as `context.DeadlineExceeded` from a timeout) is
propagated as the run's error instead. -/
theorem c6_canceled_is_clean (deps : RunDeps) (ctx : Ctx) (sink : Nat → Bool)
    (cfg : FinderConfig) (tree : FNode) (pr : WalkCfg × List Char)
    (h : mkWalkCfg deps cfg = .ok pr) :
    ((walkNode pr.1 ctx sink pr.2 (goBase pr.2) tree ⟨0, 0, 0, [], [], []⟩).2 =
        some .canceled →
      (Run deps ctx sink cfg tree).err = none ∧
      (Run deps ctx sink cfg tree).count =
        (walkNode pr.1 ctx sink pr.2 (goBase pr.2) tree ⟨0, 0, 0, [], [], []⟩).1.count) ∧
    ((walkNode pr.1 ctx sink pr.2 (goBase pr.2) tree ⟨0, 0, 0, [], [], []⟩).2 =
        some .deadlineExceeded →
      (Run deps ctx sink cfg tree).err = some (.ctxErr .deadlineExceeded)) := by
  rw [Run_of_ok deps ctx sink cfg tree pr h]
  unfold runWalk
  rcases hwn : walkNode pr.1 ctx sink pr.2 (goBase pr.2) tree ⟨0, 0, 0, [], [], []⟩
    with ⟨stf, oe⟩
  simp only [hwn]
  constructor
  · intro hcan
    have hoe : oe = some .canceled := hcan
    subst hoe
    exact ⟨rfl, rfl⟩
  · intro hdead
    have hoe : oe = some .deadlineExceeded := hdead
    subst hoe
    rfl

/-- Counterexample for C6 as stated: a timeout-style cancellation
(`DeadlineExceeded`) firing mid-walk makes `Run` return a non-nil error, not
a clean result. -/
theorem c6_claim_counterexample :
    (Run depsW (some (1, .deadlineExceeded)) (fun _ => true) cfgWPath treeW).err =
      some (.ctxErr .deadlineExceeded) ∧
    (Run depsW (some (1, .deadlineExceeded)) (fun _ => true) cfgWPath treeW).count =
      0 := by
  decide

/-- Witness for C6's amended statement: an interrupt-style cancellation
(`Canceled`) firing mid-walk yields a nil error with the partial count. -/
theorem c6_witness :
    (Run depsW (some (1, .canceled)) (fun _ => true) cfgWPath treeW).err = none ∧
    (Run depsW (some (1, .canceled)) (fun _ => true) cfgWPath treeW).count =
      (walkNode (mkOkPair depsW cfgWPath).1 (some (1, .canceled)) (fun _ => true)
        (mkOkPair depsW cfgWPath).2 (goBase (mkOkPair depsW cfgWPath).2) treeW
        ⟨0, 0, 0, [], [], []⟩).1.count := by
  exact (c6_canceled_is_clean depsW (some (1, .canceled)) (fun _ => true) cfgWPath
    treeW (mkOkPair depsW cfgWPath) rfl).1 (by decide)

end GoFind.Finder

namespace GoFind.Finder

theorem bad_of_regex (deps : RunDeps) (cfg : FinderConfig)
    (h1 : cfg.regex ≠ []) (h2 : deps.regexCompile cfg.regex = none) :
    mkWalkCfg deps cfg = .error .invalidRegex := by
  unfold mkWalkCfg regexStage
  rw [if_neg h1, h2]

theorem bad_of_larger (deps : RunDeps) (cfg : FinderConfig)
    (h1 : cfg.larger ≠ []) (h2 : parseSize cfg.larger = none) :
    ∃ e, mkWalkCfg deps cfg = .error e := by
  by_cases hr : cfg.regex = []
  · refine ⟨.invalidLarger, ?_⟩
    unfold mkWalkCfg regexStage largerStage
    rw [if_pos hr, if_neg h1, h2]
  · cases hre : deps.regexCompile cfg.regex with
    | none => exact ⟨.invalidRegex, bad_of_regex deps cfg hr hre⟩
    | some r =>
      refine ⟨.invalidLarger, ?_⟩
      unfold mkWalkCfg regexStage largerStage
      rw [if_neg hr, hre, if_neg h1, h2]

theorem bad_of_smaller (deps : RunDeps) (cfg : FinderConfig)
    (h1 : cfg.smaller ≠ []) (h2 : parseSize cfg.smaller = none) :
    ∃ e, mkWalkCfg deps cfg = .error e := by
  rcases hl : largerStage cfg with e | lb
  · cases hr : regexStage deps cfg with
    | error e2 =>
      refine ⟨e2, ?_⟩
      unfold mkWalkCfg
      rw [hr]
    | ok re =>
      refine ⟨e, ?_⟩
      unfold mkWalkCfg
      rw [hr, hl]
  · cases hr : regexStage deps cfg with
    | error e2 =>
      refine ⟨e2, ?_⟩
      unfold mkWalkCfg
      rw [hr]
    | ok re =>
      refine ⟨.invalidSmaller, ?_⟩
      unfold mkWalkCfg
      rw [hr, hl]
      unfold smallerStage
      rw [if_neg h1, h2]

theorem bad_of_since (deps : RunDeps) (cfg : FinderConfig)
    (h1 : cfg.since ≠ []) (h2 : parseSince deps cfg.since = none) :
    ∃ e, mkWalkCfg deps cfg = .error e := by
  cases hr : regexStage deps cfg with
  | error e2 => exact ⟨e2, by unfold mkWalkCfg; rw [hr]⟩
  | ok re =>
    cases hl : largerStage cfg with
    | error e2 => exact ⟨e2, by unfold mkWalkCfg; rw [hr, hl]⟩
    | ok lb =>
      cases hs : smallerStage cfg with
      | error e2 => exact ⟨e2, by unfold mkWalkCfg; rw [hr, hl, hs]⟩
      | ok sb =>
        refine ⟨.invalidSince, ?_⟩
        unfold mkWalkCfg
        rw [hr, hl, hs]
        unfold sinceStage
        rw [if_neg h1, h2]

theorem bad_of_output (deps : RunDeps) (cfg : FinderConfig)
    (h1 : outModeNorm cfg ≠ str ("path") ∧ outModeNorm cfg ≠ str ("json") ∧
      outModeNorm cfg ≠ str ("ndjson")) :
    ∃ e, mkWalkCfg deps cfg = .error e := by
  cases hr : regexStage deps cfg with
  | error e2 => exact ⟨e2, by unfold mkWalkCfg; rw [hr]⟩
  | ok re =>
    cases hl : largerStage cfg with
    | error e2 => exact ⟨e2, by unfold mkWalkCfg; rw [hr, hl]⟩
    | ok lb =>
      cases hs : smallerStage cfg with
      | error e2 => exact ⟨e2, by unfold mkWalkCfg; rw [hr, hl, hs]⟩
      | ok sb =>
        cases hsi : sinceStage deps cfg with
        | error e2 => exact ⟨e2, by unfold mkWalkCfg; rw [hr, hl, hs, hsi]⟩
        | ok si =>
          refine ⟨.invalidOutput, ?_⟩
          have hout : outModeStage cfg = .error .invalidOutput := by
            unfold outModeStage
            rw [if_pos h1]
          unfold mkWalkCfg
          rw [hr, hl, hs, hsi, hout]

/-- C5 (amended): an invalid regex, an unparsable `--larger` or `--smaller`
size specification, an unparsable `--since` specification, or an unsupported
output-format selector each make `Run` fail during validation — returning a
zero count and a non-nil error, with no output bytes written and no entry
visited, independently of the tree, the sink and the cancellation context.
An empty root, however, is not an error: it is silently defaulted to `"."`
before validation. -/
theorem c5_validation_failures (deps : RunDeps) (cfg : FinderConfig)
    (h : (cfg.regex ≠ [] ∧ deps.regexCompile cfg.regex = none) ∨
         (cfg.larger ≠ [] ∧ parseSize cfg.larger = none) ∨
         (cfg.smaller ≠ [] ∧ parseSize cfg.smaller = none) ∨
         (cfg.since ≠ [] ∧ parseSince deps cfg.since = none) ∨
         (outModeNorm cfg ≠ str ("path") ∧ outModeNorm cfg ≠ str ("json") ∧
           outModeNorm cfg ≠ str ("ndjson"))) :
    ∃ e, mkWalkCfg deps cfg = .error e ∧
      ∀ (ctx : Ctx) (sink : Nat → Bool) (tree : FNode),
        Run deps ctx sink cfg tree = ⟨0, some e, [], []⟩ := by
  have hbad : ∃ e, mkWalkCfg deps cfg = .error e := by
    rcases h with ⟨h1, h2⟩ | ⟨h1, h2⟩ | ⟨h1, h2⟩ | ⟨h1, h2⟩ | h1
    · exact ⟨.invalidRegex, bad_of_regex deps cfg h1 h2⟩
    · exact bad_of_larger deps cfg h1 h2
    · exact bad_of_smaller deps cfg h1 h2
    · exact bad_of_since deps cfg h1 h2
    · exact bad_of_output deps cfg h1
  obtain ⟨e, he⟩ := hbad
  exact ⟨e, he, fun ctx sink tree => Run_of_error deps ctx sink cfg tree e he⟩

/-- Counterexample for C5 as stated: with an empty root, `Run` does not fail —
the root is defaulted to `"."` and the run succeeds with a nonzero count. -/
theorem c5_claim_counterexample :
    (Run depsW none (fun _ => true)
      (⟨[], [], [], [], [], false, [], [], [], []⟩ : FinderConfig) treeW).err =
      none ∧
    (Run depsW none (fun _ => true)
      (⟨[], [], [], [], [], false, [], [], [], []⟩ : FinderConfig) treeW).count =
      1 := by
  decide

/-- Witness for C5's amended statement at an unparsable `--larger`
specification: validation fails with a zero count, no output and no visit,
whatever the tree. -/
theorem c5_witness :
    ∃ e, mkWalkCfg depsW
        (⟨str ("r"), [], [], [], [], false, str ("abc"), [], [], []⟩ :
          FinderConfig) = .error e ∧
      ∀ (ctx : Ctx) (sink : Nat → Bool) (tree : FNode),
        Run depsW ctx sink
          (⟨str ("r"), [], [], [], [], false, str ("abc"), [], [], []⟩ :
            FinderConfig) tree = ⟨0, some e, [], []⟩ := by
  exact c5_validation_failures depsW
    (⟨str ("r"), [], [], [], [], false, str ("abc"), [], [], []⟩ : FinderConfig)
    (Or.inr (Or.inl ⟨by decide, by decide⟩))

end GoFind.Finder

namespace GoFind.ConcModel

open GoFind.Finder (FNode countAll countList one_le_countAll)

theorem one_le_taskSize (t : Task) : 1 ≤ taskSize t := one_le_countAll t.node

theorem countList_eq_sum (cs : List FNode) :
    countList cs = (cs.map countAll).sum := by
  induction cs with
  | nil => simp [countList]
  | cons c rest ih => simp [countList, ih]

theorem pendSize_append (a b : List Task) :
    pendSize (a ++ b) = pendSize a + pendSize b := by
  simp [pendSize]

theorem pendSize_cons (t : Task) (rest : List Task) :
    pendSize (t :: rest) = taskSize t + pendSize rest := by
  simp [pendSize]

theorem pendSize_childTasks (p : List Char) (n : FNode) :
    pendSize (childTasks p n) + 1 = countAll n := by
  cases n with
  | file fn fs ft => simp [childTasks, pendSize, countAll]
  | dir dn ds dt cs =>
    simp only [childTasks, pendSize, List.map_map]
    have : (taskSize ∘ fun c => (⟨p ++ '/' :: c.nameV, c⟩ : Task)) = countAll := by
      funext c
      rfl
    rw [this, countAll, ← countList_eq_sum]
    omega

theorem pendSize_getD_eraseIdx (l : List Task) (i : Nat) (d : Task)
    (h : i < l.length) :
    taskSize (l.getD i d) + pendSize (l.eraseIdx i) = pendSize l := by
  induction l generalizing i with
  | nil => simp at h
  | cons t rest ih =>
    cases i with
    | zero => simp [pendSize_cons]
    | succ j =>
      have hj : j < rest.length := by simpa using h
      simp only [List.getD_cons_succ, List.eraseIdx_cons_succ, pendSize_cons]
      rw [← ih j hj]
      omega

theorem denotPend_append (emitP pruneP : List Char → FNode → Bool)
    (a b : List Task) :
    denotPend emitP pruneP (a ++ b) =
      denotPend emitP pruneP a + denotPend emitP pruneP b := by
  induction a with
  | nil => simp [denotPend]
  | cons t rest ih =>
    simp only [List.cons_append, List.append_eq, denotPend, ih]
    rw [add_assoc]

theorem denotPend_getD_eraseIdx (emitP pruneP : List Char → FNode → Bool)
    (l : List Task) (i : Nat) (d : Task) (h : i < l.length) :
    (↑(denotC emitP pruneP (l.getD i d).path (l.getD i d).node) :
        Multiset (List Char)) +
      denotPend emitP pruneP (l.eraseIdx i) = denotPend emitP pruneP l := by
  induction l generalizing i with
  | nil => simp at h
  | cons t rest ih =>
    cases i with
    | zero => simp [denotPend]
    | succ j =>
      have hj : j < rest.length := by simpa using h
      simp only [List.getD_cons_succ, List.eraseIdx_cons_succ, denotPend]
      rw [← ih j hj]
      rw [add_left_comm]

theorem denotPend_childTasks (emitP pruneP : List Char → FNode → Bool)
    (pbase : List Char) (cs : List FNode) :
    denotPend emitP pruneP
        (cs.map (fun c => (⟨pbase ++ '/' :: c.nameV, c⟩ : Task))) =
      ↑(denotCs emitP pruneP pbase cs) := by
  induction cs with
  | nil => rw [denotCs.eq_def]; rfl
  | cons c rest ih =>
    rw [denotCs.eq_def]
    simp only [List.map_cons, denotPend, ih]
    rw [← Multiset.coe_add]

theorem denotC_step (emitP pruneP : List Char → FNode → Bool)
    (p : List Char) (n : FNode) :
    (↑(denotC emitP pruneP p n) : Multiset (List Char)) =
      ↑(procTask emitP pruneP ⟨p, n⟩).1 +
        denotPend emitP pruneP (procTask emitP pruneP ⟨p, n⟩).2 := by
  by_cases hpr : pruneP p n = true
  · have hp2 : procTask emitP pruneP ⟨p, n⟩ = ([], []) := by
      unfold procTask
      rw [if_pos hpr]
    rw [hp2, denotC.eq_def, if_pos hpr]
    simp [denotPend]
  · have hp2 : procTask emitP pruneP ⟨p, n⟩ =
        ((if emitP p n then [p] else []), childTasks p n) := by
      unfold procTask
      rw [if_neg hpr]
    rw [hp2, denotC.eq_def, if_neg hpr]
    cases n with
    | file fn fs ft =>
      simp [childTasks, denotPend]
    | dir dn ds dt cs =>
      simp only [childTasks]
      rw [denotPend_childTasks]
      rw [← Multiset.coe_add]

theorem pickIdx_lt (conc : Nat) (sched : Nat → Nat) (step : Nat) (len : Nat)
    (h : 1 ≤ len) : pickIdx conc sched step len < len := by
  unfold pickIdx
  have h2 : 1 ≤ max conc 1 := Nat.le_max_right conc 1
  have h1 : 0 < min (max conc 1) len := by omega
  have h4 := Nat.mod_lt (sched step) h1
  have h5 : min (max conc 1) len ≤ len := Nat.min_le_right _ _
  omega

theorem runSchedF_perm (emitP pruneP : List Char → FNode → Bool) (conc : Nat)
    (sched : Nat → Nat) :
    ∀ (N fuel : Nat) (pending : List Task) (acc : List (List Char)) (step : Nat),
      pendSize pending ≤ N → pendSize pending ≤ fuel →
      (↑(runSchedF emitP pruneP conc sched fuel step pending acc) :
          Multiset (List Char)) =
        ↑acc + denotPend emitP pruneP pending := by
  intro N
  induction N with
  | zero =>
    intro fuel pending acc step hN _
    cases pending with
    | nil =>
      cases fuel <;> simp [runSchedF, denotPend]
    | cons t rest =>
      have := one_le_taskSize t
      rw [pendSize_cons] at hN
      omega
  | succ N ih =>
    intro fuel pending acc step hN hf
    cases pending with
    | nil =>
      cases fuel <;> simp [runSchedF, denotPend]
    | cons t0 rest0 =>
      have hps : 1 ≤ pendSize (t0 :: rest0) := by
        have := one_le_taskSize t0
        rw [pendSize_cons]
        omega
      cases fuel with
      | zero => omega
      | succ f =>
        rw [runSchedF]
        have hlen : 1 ≤ (t0 :: rest0).length := by simp
        have hi : pickIdx conc sched step (t0 :: rest0).length <
            (t0 :: rest0).length := pickIdx_lt conc sched step _ hlen
        have hsz : pendSize ((t0 :: rest0).eraseIdx
              (pickIdx conc sched step (t0 :: rest0).length) ++
            (procTask emitP pruneP ((t0 :: rest0).getD
              (pickIdx conc sched step (t0 :: rest0).length) t0)).2) + 1 ≤
            pendSize (t0 :: rest0) := by
          rw [pendSize_append]
          have he := pendSize_getD_eraseIdx (t0 :: rest0)
            (pickIdx conc sched step (t0 :: rest0).length) t0 hi
          have hproc : pendSize (procTask emitP pruneP ((t0 :: rest0).getD
              (pickIdx conc sched step (t0 :: rest0).length) t0)).2 + 1 ≤
              taskSize ((t0 :: rest0).getD
                (pickIdx conc sched step (t0 :: rest0).length) t0) := by
            by_cases hpr : pruneP ((t0 :: rest0).getD
                (pickIdx conc sched step (t0 :: rest0).length) t0).path
                ((t0 :: rest0).getD
                  (pickIdx conc sched step (t0 :: rest0).length) t0).node = true
            · have hp2 : procTask emitP pruneP ((t0 :: rest0).getD
                  (pickIdx conc sched step (t0 :: rest0).length) t0) = ([], []) := by
                unfold procTask
                rw [if_pos hpr]
              rw [hp2]
              have := one_le_taskSize ((t0 :: rest0).getD
                (pickIdx conc sched step (t0 :: rest0).length) t0)
              simp only [pendSize, List.map_nil, List.sum_nil]
              omega
            · have hp2 : (procTask emitP pruneP ((t0 :: rest0).getD
                  (pickIdx conc sched step (t0 :: rest0).length) t0)).2 =
                  childTasks ((t0 :: rest0).getD
                      (pickIdx conc sched step (t0 :: rest0).length) t0).path
                    ((t0 :: rest0).getD
                      (pickIdx conc sched step (t0 :: rest0).length) t0).node := by
                unfold procTask
                rw [if_neg hpr]
              rw [hp2]
              have := pendSize_childTasks ((t0 :: rest0).getD
                (pickIdx conc sched step (t0 :: rest0).length) t0).path
                ((t0 :: rest0).getD
                  (pickIdx conc sched step (t0 :: rest0).length) t0).node
              unfold taskSize
              omega
          omega
        rw [ih f (_ ++ _) (acc ++ _) (step + 1) (by omega) (by omega)]
        rw [denotPend_append]
        rw [← denotPend_getD_eraseIdx emitP pruneP (t0 :: rest0)
          (pickIdx conc sched step (t0 :: rest0).length) t0 hi]
        rw [denotC_step]
        rw [← Multiset.coe_add]
        abel

/-- C7 (spec-modelled): for the concurrent traversal engine, two runs over
the same tree with the same filtering and pruning logic emit the same
multiset — hence the same set — of paths, whatever the concurrency limits and
whatever order the scheduler completes the active directory reads in. -/
theorem c7_concurrency_equivalence (emitP pruneP : List Char → FNode → Bool)
    (c1 c2 : Nat) (s1 s2 : Nat → Nat) (rootPath : List Char) (tree : FNode) :
    (↑(runConc emitP pruneP c1 s1 rootPath tree) : Multiset (List Char)) =
      ↑(runConc emitP pruneP c2 s2 rootPath tree) := by
  unfold runConc
  have hsz : pendSize [(⟨rootPath, tree⟩ : Task)] = countAll tree := by
    simp [pendSize, taskSize]
  rw [runSchedF_perm emitP pruneP c1 s1 (countAll tree) (countAll tree)
    [⟨rootPath, tree⟩] [] 0 (by omega) (by omega)]
  rw [runSchedF_perm emitP pruneP c2 s2 (countAll tree) (countAll tree)
    [⟨rootPath, tree⟩] [] 0 (by omega) (by omega)]

end GoFind.ConcModel
